import Mathlib

/-!
Verification development for the `upyre` remote-execution transport
(`src/upyrc/upyre.py`): the JSON wire codec, the shared receive loop with
echo filtering and partial-frame reassembly, the command-result parsing,
and the session open/execute/close lifecycle.

Bytes on the wire are modelled as `List Char`; a JSON document is the
mutual inductive `Json`/`JArr`/`JObj`. `encodeV` models `json.dumps` with
its default separators and ASCII escaping of quote and backslash;
`parseF`/`loads` model `json.loads` (strict mode) as a fuelled
recursive-descent parser. Python exceptions are modelled by the `PyErr`
error type of an `Except` result.
-/

namespace Upyre

/-! ## JSON values -/

mutual
/-- JSON value, as produced by `json.loads` (numbers restricted to the
integers actually used by the protocol envelopes). -/
inductive Json where
  | null : Json
  | bool (b : Bool) : Json
  | num (n : Int) : Json
  | str (s : List Char) : Json
  | arr (items : JArr) : Json
  | obj (kvs : JObj) : Json
/-- List of JSON array items. -/
inductive JArr where
  | nil : JArr
  | cons (hd : Json) (tl : JArr) : JArr
/-- Association list of JSON object members, in document order. -/
inductive JObj where
  | nil : JObj
  | cons (k : List Char) (v : Json) (tl : JObj) : JObj
end

/-- Conversion of a `JArr` to a plain list (used when iterating). -/
def jarrToList : JArr → List Json
  | .nil => []
  | .cons x tl => x :: jarrToList tl

/-- Conversion of a plain list to a `JArr`. -/
def jarrOfList : List Json → JArr
  | [] => .nil
  | x :: tl => .cons x (jarrOfList tl)

/-- Keys of a `JObj`, in order (what Python yields when iterating a dict). -/
def jobjKeys : JObj → List (List Char)
  | .nil => []
  | .cons k _ tl => k :: jobjKeys tl

/-- Lookup of a key in a JSON object (Python `dict` access on the decoded
document; the envelopes produced by the protocol have unique keys). -/
def jObjGet : JObj → List Char → Option Json
  | .nil, _ => none
  | .cons k v tl, key => if k = key then some v else jObjGet tl key

/-! ## Field-name and constant strings of the protocol -/

def kType : List Char := ['t','y','p','e']
def kData : List Char := ['d','a','t','a']
def kProjectName : List Char := ['p','r','o','j','e','c','t','_','n','a','m','e']
def kEngineVersion : List Char := ['e','n','g','i','n','e','_','v','e','r','s','i','o','n']
def kSource : List Char := ['s','o','u','r','c','e']
def kDest : List Char := ['d','e','s','t']
def kSuccess : List Char := ['s','u','c','c','e','s','s']
def kResult : List Char := ['r','e','s','u','l','t']
def kOutput : List Char := ['o','u','t','p','u','t']
def kVersion : List Char := ['v','e','r','s','i','o','n']
def kMagic : List Char := ['m','a','g','i','c']
def kCommand : List Char := ['c','o','m','m','a','n','d']
def kUnattended : List Char := ['u','n','a','t','t','e','n','d','e','d']
def kExecMode : List Char := ['e','x','e','c','_','m','o','d','e']

/-- Message type of `PingMessage` (`TYPE = "ping"`). -/
def tyPing : List Char := ['p','i','n','g']
/-- Message type of `PythonRemoteCommandConnection` (`TYPE = "command"`). -/
def tyCommand : List Char := ['c','o','m','m','a','n','d']
/-- The `UE_MAGIC` protocol constant. -/
def ueMagic : List Char := ['u','e','_','p','y']
/-- Default string for a missing `result` field (Python literal `"None"`). -/
def strNone : List Char := ['N','o','n','e']

/-! ## Encoder, modelling `json.dumps` (default separators) -/

/-- Digit character for a value below ten. -/
def digitChar (d : Nat) : Char := Char.ofNat (48 + d)

/-- Decimal digits of a natural number, most significant first, with
explicit fuel (the fuel is structural so the kernel can evaluate it). -/
def natDigitsFuel : Nat → Nat → List Char
  | 0, _ => []
  | f + 1, n => if n < 10 then [digitChar n] else natDigitsFuel f (n / 10) ++ [digitChar (n % 10)]

/-- Decimal digits of a natural number, most significant first. -/
def natToDigits (n : Nat) : List Char := natDigitsFuel (n + 1) n

/-- Decimal rendering of an integer, as `json.dumps` prints Python ints. -/
def encodeInt (i : Int) : List Char :=
  if i < 0 then '-' :: natToDigits i.natAbs else natToDigits i.toNat

/-- Escape of a single string character: `json.dumps` escapes the quote and
the backslash (control characters and non-ASCII are excluded by `validV`). -/
def escChar (c : Char) : List Char :=
  if c = '"' || c = '\\' then ['\\', c] else [c]

/-- Escaped body of a JSON string. -/
def escape : List Char → List Char
  | [] => []
  | c :: tl => escChar c ++ escape tl

/-- Encoded JSON string, quotes included. -/
def encStr (s : List Char) : List Char := '"' :: (escape s ++ ['"'])

/-- Rendering of the `null` literal. -/
def litNull : List Char := ['n','u','l','l']

/-- Rendering of the `true` literal. -/
def litTrue : List Char := ['t','r','u','e']

/-- Rendering of the `false` literal. -/
def litFalse : List Char := ['f','a','l','s','e']

mutual
/-- Encoding of a JSON value, byte for byte what `json.dumps` emits with its
default separators (a space after each colon and comma). -/
def encodeV : Json → List Char
  | .null => litNull
  | .bool true => litTrue
  | .bool false => litFalse
  | .num i => encodeInt i
  | .str s => encStr s
  | .arr a => '[' :: (encodeA a ++ [']'])
  | .obj o => '{' :: (encodeO o ++ ['}'])
/-- Encoding of array items, comma-space separated. -/
def encodeA : JArr → List Char
  | .nil => []
  | .cons x tl => encodeV x ++ (match tl with | .nil => [] | _ => [',', ' ']) ++ encodeA tl
/-- Encoding of object members, comma-space separated, colon-space between
key and value. -/
def encodeO : JObj → List Char
  | .nil => []
  | .cons k v tl =>
      encStr k ++ ':' :: ' ' :: encodeV v ++ (match tl with | .nil => [] | _ => [',', ' ']) ++ encodeO tl
end

/-- Validity of one string character for the escape-free encoder model:
printable ASCII (codes 32 to 126); quote and backslash are allowed because
`escChar` escapes them, and anything else is escaped by `json.dumps` in a
form this model does not reproduce. -/
def validChar (c : Char) : Bool := decide (32 ≤ c.toNat ∧ c.toNat ≤ 126)

/-- Validity of a whole string. -/
def validStr (s : List Char) : Bool := s.all validChar

mutual
/-- Validity of a JSON value for the encoder model (all strings printable
ASCII). Every envelope the protocol itself builds satisfies this. -/
def validV : Json → Bool
  | .null => true
  | .bool _ => true
  | .num _ => true
  | .str s => validStr s
  | .arr a => validA a
  | .obj o => validO o
/-- Validity of array items. -/
def validA : JArr → Bool
  | .nil => true
  | .cons x tl => validV x && validA tl
/-- Validity of object members. -/
def validO : JObj → Bool
  | .nil => true
  | .cons k v tl => validStr k && validV v && validO tl
end

mutual
/-- Structural size of a JSON value, an upper bound for the parser fuel. -/
def sizeV : Json → Nat
  | .null => 1
  | .bool _ => 1
  | .num _ => 1
  | .str _ => 1
  | .arr a => 1 + sizeA a
  | .obj o => 1 + sizeO o
/-- Structural size of array items. -/
def sizeA : JArr → Nat
  | .nil => 0
  | .cons x tl => 1 + sizeV x + sizeA tl
/-- Structural size of object members. -/
def sizeO : JObj → Nat
  | .nil => 0
  | .cons _ v tl => 1 + sizeV v + sizeO tl
end

/-! ## Parser, modelling `json.loads` (strict mode) on the documents
the encoder can produce -/

/-- Whitespace characters skipped by the JSON decoder. -/
def isWs (c : Char) : Bool := c = ' ' || c = '\t' || c = '\n' || c = '\r'

/-- Decimal digit test. -/
def isDigit (c : Char) : Bool := decide (48 ≤ c.toNat ∧ c.toNat ≤ 57)

/-- Numeric value of a digit character. -/
def digitVal (c : Char) : Nat := c.toNat - 48

/-- Drop leading whitespace. -/
def skipWs : List Char → List Char
  | [] => []
  | c :: tl => if isWs c then skipWs tl else c :: tl

/-- Match a literal suffix (`rue`, `alse`, `ull`), returning the rest. -/
def parseLit : List Char → List Char → Option (List Char)
  | [], cs => some cs
  | _ :: _, [] => none
  | l :: ls, c :: cs => if c = l then parseLit ls cs else none

/-- String body scanner: everything after the opening quote, handling the
two escapes the encoder emits and rejecting raw control characters
(strict-mode `json.loads`). -/
def strLoop : List Char → Option (List Char × List Char)
  | [] => none
  | c :: tl =>
    if c = '\\' then
      match tl with
      | [] => none
      | d :: tl2 =>
        if d = '"' || d = '\\' then (strLoop tl2).map (fun p => (d :: p.1, p.2)) else none
    else if c = '"' then some ([], tl)
    else if 32 ≤ c.toNat then (strLoop tl).map (fun p => (c :: p.1, p.2))
    else none

/-- JSON string parse: an opening quote followed by the string body. -/
def parseString (cs : List Char) : Option (List Char × List Char) :=
  match cs with
  | [] => none
  | c :: tl => if c = '"' then strLoop tl else none

/-- Longest digit run at the head of the input. -/
def takeDigits : List Char → List Char × List Char
  | [] => ([], [])
  | c :: tl =>
    if isDigit c then
      ((takeDigits tl).1.cons c, (takeDigits tl).2)
    else ([], c :: tl)

/-- Value of a digit run, most significant first. -/
def digitsToNat (ds : List Char) : Nat := ds.foldl (fun a c => a * 10 + digitVal c) 0

/-- Integer parse: optional minus sign, then a nonempty digit run
(maximal munch). -/
def parseNumber (cs : List Char) : Option (Int × List Char) :=
  match cs with
  | [] => none
  | c :: tl =>
    if c = '-' then
      match takeDigits tl with
      | ([], _) => none
      | (d :: ds, r) => some (-(Int.ofNat (digitsToNat (d :: ds))), r)
    else
      match takeDigits (c :: tl) with
      | ([], _) => none
      | (d :: ds, r) => some (Int.ofNat (digitsToNat (d :: ds)), r)

/-- The three mutually recursive parsing functions at one fuel level:
values, object members, array items. -/
structure PFuns where
  pv : List Char → Option (Json × List Char)
  pm : List Char → Option (JObj × List Char)
  pi : List Char → Option (JArr × List Char)

/-- One fuel level of the value parser: skip whitespace and dispatch on the
first character, like the scanner inside `json.loads`. -/
def valStep (p : PFuns) (cs : List Char) : Option (Json × List Char) :=
  match skipWs cs with
  | [] => none
  | c :: tl =>
    if c = '{' then
      match skipWs tl with
      | [] => none
      | d :: tl2 =>
        if d = '}' then some (Json.obj JObj.nil, tl2)
        else
          match p.pm (d :: tl2) with
          | none => none
          | some (o, r) => some (Json.obj o, r)
    else if c = '[' then
      match skipWs tl with
      | [] => none
      | d :: tl2 =>
        if d = ']' then some (Json.arr JArr.nil, tl2)
        else
          match p.pi (d :: tl2) with
          | none => none
          | some (a, r) => some (Json.arr a, r)
    else if c = '"' then
      match strLoop tl with
      | none => none
      | some (s, r) => some (Json.str s, r)
    else if c = 't' then
      match parseLit ['r','u','e'] tl with
      | none => none
      | some r => some (Json.bool true, r)
    else if c = 'f' then
      match parseLit ['a','l','s','e'] tl with
      | none => none
      | some r => some (Json.bool false, r)
    else if c = 'n' then
      match parseLit ['u','l','l'] tl with
      | none => none
      | some r => some (Json.null, r)
    else
      match parseNumber (c :: tl) with
      | none => none
      | some (n, r) => some (Json.num n, r)

/-- One fuel level of the object-member parser: `key : value`, then either
a comma and further members or the closing brace. -/
def memStep (p : PFuns) (cs : List Char) : Option (JObj × List Char) :=
  match parseString cs with
  | none => none
  | some (k, r1) =>
    match skipWs r1 with
    | [] => none
    | c :: r2 =>
      if c = ':' then
        match p.pv r2 with
        | none => none
        | some (v, r3) =>
          match skipWs r3 with
          | [] => none
          | d :: r4 =>
            if d = ',' then
              match p.pm (skipWs r4) with
              | none => none
              | some (o, r5) => some (JObj.cons k v o, r5)
            else if d = '}' then some (JObj.cons k v JObj.nil, r4)
            else none
      else none

/-- One fuel level of the array-item parser: a value, then either a comma
and further items or the closing bracket. -/
def itemStep (p : PFuns) (cs : List Char) : Option (JArr × List Char) :=
  match p.pv cs with
  | none => none
  | some (v, r1) =>
    match skipWs r1 with
    | [] => none
    | d :: r2 =>
      if d = ',' then
        match p.pi (skipWs r2) with
        | none => none
        | some (a, r3) => some (JArr.cons v a, r3)
      else if d = ']' then some (JArr.cons v JArr.nil, r2)
      else none

/-- Fuelled parser tower; every recursive call descends one fuel level, so
any input of length below the fuel parses identically at higher fuel. -/
def parseF : Nat → PFuns
  | 0 => ⟨fun _ => none, fun _ => none, fun _ => none⟩
  | f + 1 => ⟨valStep (parseF f), memStep (parseF f), itemStep (parseF f)⟩

/-- Model of `json.loads` on a byte buffer: parse one value with enough
fuel and require that only whitespace remains; `none` models
`json.decoder.JSONDecodeError` (in the receive loops, an incomplete
accumulated frame). -/
def loads (cs : List Char) : Option Json :=
  match (parseF (cs.length + 1)).pv cs with
  | none => none
  | some (v, r) => if skipWs r = [] then some v else none

/-! ## Python exceptions -/

/-- Exceptions that the modelled code paths can raise. `connectionFailed`
and `connectionNotOpened` are the module's own `ConnectionError` with its
two messages; `socketTimeout` is `socket.timeout` escaping from `accept`;
the first three model `AttributeError`, `KeyError` and `TypeError`. -/
inductive PyErr where
  | attributeError
  | keyError
  | typeError
  | socketTimeout
  | connectionFailed
  | connectionNotOpened
  | pythonCommandError (msg : Json)

/-- Test whether an error is the module's `ConnectionError` class (either
message), as a caller's `except ConnectionError` clause would see it. -/
def isConnectionError : PyErr → Bool
  | .connectionFailed => true
  | .connectionNotOpened => true
  | _ => false

/-- Python subscript `j[key]` on a decoded JSON document: `KeyError` when
the key is absent from a dict, `TypeError` when the value is not a dict. -/
def pyIndex (j : Json) (key : List Char) : Except PyErr Json :=
  match j with
  | .obj o =>
    match jObjGet o key with
    | some v => .ok v
    | none => .error .keyError
  | _ => .error .typeError

/-- Python `j.get(key, dflt)`: only dicts have `.get`, anything else
raises `AttributeError`. -/
def dictGet (j : Json) (key : List Char) (dflt : Json) : Except PyErr Json :=
  match j with
  | .obj o => .ok ((jObjGet o key).getD dflt)
  | _ => .error .attributeError

/-- Python `==` between a decoded JSON value and a string constant: true
exactly when the value is that string. -/
def isStrEq (v : Json) (s : List Char) : Bool :=
  match v with
  | .str u => decide (u = s)
  | _ => false

/-- Python truthiness of a decoded JSON value. -/
def pyTruthy : Json → Bool
  | .null => false
  | .bool b => b
  | .num n => decide (n ≠ 0)
  | .str s => !s.isEmpty
  | .arr .nil => false
  | .arr (.cons _ _) => true
  | .obj .nil => false
  | .obj (.cons _ _ _) => true

/-! ## The receive loops

A run of a loop is driven by the finite list of byte chunks the socket
delivers, in order; when the list is exhausted the next `recvfrom` raises
`socket.timeout`, which is how every run ends unless the loop returned
first. `acc` is the `data_received` accumulator carried across chunks. -/

/-- Receive loop of `PythonRemoteCommandConnection.receive` (lines
377-396): accumulate, retry `json.loads`, drop echoes of the locally sent
`command` type, and return the first other decoded envelope; on timeout
return `None` (`json_data` is `None` whenever the timeout fires). -/
def cmdLoop (acc : List Char) : List (List Char) → Except PyErr (Option Json)
  | [] => .ok none
  | c :: rest =>
    match loads (acc ++ c) with
    | none => cmdLoop (acc ++ c) rest
    | some j =>
      match pyIndex j kType with
      | .error e => .error e
      | .ok ty => if isStrEq ty tyCommand then cmdLoop [] rest else .ok (some j)

/-- Command-path receive on a fresh call (empty accumulator). -/
def cmdReceive (chunks : List (List Char)) : Except PyErr (Option Json) :=
  cmdLoop [] chunks

/-- Receive loop of the discovery path: `_Message.raw_receive` (lines
196-213) with `TYPE = "ping"` fused with the consumer
`PingMessage.receive` (lines 229-241), which skips replies whose
`data.project_name` differs from the configured target and returns the
first acceptable reply; `target = []` models an unset `PROJECT_NAME`. -/
def pingLoop (target : List Char) (acc : List Char) : List (List Char) → Except PyErr (Option Json)
  | [] => .ok none
  | c :: rest =>
    match loads (acc ++ c) with
    | none => pingLoop target (acc ++ c) rest
    | some j =>
      match pyIndex j kType with
      | .error e => .error e
      | .ok ty =>
        if isStrEq ty tyPing then pingLoop target [] rest
        else if target.isEmpty then .ok (some j)
        else
          match pyIndex j kData with
          | .error e => .error e
          | .ok d =>
            match pyIndex d kProjectName with
            | .error e => .error e
            | .ok pn => if isStrEq pn target then .ok (some j) else pingLoop target [] rest

/-- Discovery receive of `PingMessage.receive` on a fresh call. -/
def pingReceive (target : List Char) (chunks : List (List Char)) : Except PyErr (Option Json) :=
  pingLoop target [] chunks

/-! ## PythonCommandResult -/

/-- State of a constructed `PythonCommandResult` (lines 281-288). -/
structure PyCmdResult where
  data : Json
  source_node_id : Json
  target_node_id : Json
  raise_exc : Bool

/-- Constructor `PythonCommandResult(json_result_data, raise_exc)`:
`json_result_data.get("data", {})` (an `AttributeError` when the argument
is `None` or not a dict), then the mandatory `["source"]` and `["dest"]`
subscripts. -/
def mkPythonCommandResult (mj : Option Json) (raise_exc : Bool) : Except PyErr PyCmdResult :=
  match mj with
  | none => .error .attributeError
  | some j => do
    let d ← dictGet j kData (Json.obj JObj.nil)
    let src ← pyIndex j kSource
    let dst ← pyIndex j kDest
    .ok ⟨d, src, dst, raise_exc⟩

/-- Property `success` (lines 293-298): `data.get("success", False)`; when
falsy and `raise_exc` is set, raise `PythonCommandError(self.result)`. -/
def resultSuccess (r : PyCmdResult) : Except PyErr Json := do
  let s ← dictGet r.data kSuccess (Json.bool false)
  if !pyTruthy s && r.raise_exc then do
    let m ← dictGet r.data kResult (Json.str strNone)
    .error (.pythonCommandError m)
  else .ok s

/-- Property `result` (lines 300-302): `data.get("result", "None")`. -/
def resultGet (r : PyCmdResult) : Except PyErr Json :=
  dictGet r.data kResult (Json.str strNone)

/-- Python iteration over a decoded JSON value (the comprehension in the
`output` property): arrays yield items, dicts yield keys, strings yield
characters, anything else raises `TypeError`. -/
def pyIterate (j : Json) : Except PyErr (List Json) :=
  match j with
  | .arr a => .ok (jarrToList a)
  | .obj o => .ok ((jobjKeys o).map Json.str)
  | .str s => .ok (s.map (fun c => Json.str [c]))
  | _ => .error .typeError

/-- Property `output` (lines 304-306): list built from
`data.get("output", [])`. -/
def outputGet (r : PyCmdResult) : Except PyErr (List Json) := do
  let o ← dictGet r.data kOutput (Json.arr JArr.nil)
  pyIterate o

/-- Rendering of one output entry: `o['type'] + ': ' + o['output']`, a
`TypeError` unless both fields are strings. -/
def entryStr (o : Json) : Except PyErr (List Char) := do
  let t ← pyIndex o kType
  let u ← pyIndex o kOutput
  match t, u with
  | .str ts, .str us => .ok (ts ++ ':' :: ' ' :: us)
  | _, _ => .error .typeError

/-- Rendering of all output entries, in order. -/
def entriesStr : List Json → Except PyErr (List (List Char))
  | [] => .ok []
  | o :: tl => do
    let s ← entryStr o
    let ss ← entriesStr tl
    .ok (s :: ss)

/-- Property `output_str` (lines 315-317): newline join of the rendered
entries. -/
def outputStr (r : PyCmdResult) : Except PyErr (List Char) := do
  let os ← outputGet r
  let parts ← entriesStr os
  .ok (List.intercalate ['\n'] parts)

/-- Method `__str__` (lines 319-322): the `result` string when `success`
is falsy (evaluating `success` first, which can itself raise), otherwise
`output_str`. -/
def strDunder (r : PyCmdResult) : Except PyErr (List Char) := do
  let s ← resultSuccess r
  if !pyTruthy s then
    match ← resultGet r with
    | .str m => .ok m
    | _ => .error .typeError
  else outputStr r

/-! ## Session controller (`PythonRemoteConnection`) -/

/-- Observable socket operations a controller method performs. -/
inductive SockOp where
  | sendCommandMsg (payload : Json)
  | sendCloseMsg (dest : List Char)
  | closeMcastSock

/-- The controller state that `close_connection` inspects and mutates:
`connection_created`, `unreal_node_id` and whether the multicast socket is
still open. The Closed state is `connection_created = false` with an empty
`unreal_node_id`, which is exactly the initial state and the state after
any completed close. -/
structure SessionState where
  connection_created : Bool
  unreal_node_id : List Char
  mcast_open : Bool

/-- Method `close_connection` (lines 459-468): only when
`connection_created or unreal_node_id != ''` does it send the
`close_connection` message, reset the flags and close the multicast
socket; otherwise it does nothing at all. Returns the new state and the
socket operations performed. -/
def closeConnection (st : SessionState) : SessionState × List SockOp :=
  if st.connection_created || !st.unreal_node_id.isEmpty then
    (⟨false, [], false⟩, [.sendCloseMsg st.unreal_node_id, .closeMcastSock])
  else (st, [])

/-- An opened command connection: the peer id it was opened against and
the byte chunks its socket will deliver to the next receive call before
timing out. -/
structure RCConn where
  unreal_node_id : List Char
  incoming : List (List Char)

/-- The `command` envelope `PythonRemoteCommandConnection.send` writes
(`_raw_data` of lines 345-352 with the `data` of lines 358-362), in dict
insertion order. -/
def commandEnvelope (localId dest command exec_mode : List Char) (unattended : Bool) : Json :=
  Json.obj (.cons kType (.str tyCommand)
    (.cons kVersion (.num 1)
      (.cons kMagic (.str ueMagic)
        (.cons kSource (.str localId)
          (.cons kDest (.str dest)
            (.cons kData (Json.obj (.cons kCommand (.str command)
              (.cons kUnattended (.bool unattended)
                (.cons kExecMode (.str exec_mode) .nil)))) .nil))))))

/-- Method `execute_python_command` (lines 470-479): with no command
connection it raises `ConnectionError("Connection was not openned.")`
before touching any socket; otherwise it sends the command envelope once
and runs the receive loop on what the socket delivers, building a
`PythonCommandResult` from the outcome. -/
def executePythonCommand (rcc : Option RCConn) (localId command exec_mode : List Char)
    (unattended raise_exc : Bool) : Except PyErr PyCmdResult × List SockOp :=
  match rcc with
  | none => (.error .connectionNotOpened, [])
  | some conn =>
    ((cmdLoop [] conn.incoming).bind (fun mj => mkPythonCommandResult mj raise_exc),
     [.sendCommandMsg (commandEnvelope localId conn.unreal_node_id command exec_mode unattended)])

/-- Result of a successful `open_connection`: the discovered peer id and
its connection infos. -/
structure OpenedConn where
  unreal_node_id : Json
  connection_infos : Json

/-- Method `open_connection` (lines 442-457): ping, run the discovery
receive; a `None` reply raises `ConnectionError("Connection failed.")`;
otherwise read `pong_data["source"]` and `pong_data["data"]`, send
`OpenConnection` and construct `PythonRemoteCommandConnection`, whose
`accept` call (2 second timeout) raises `socket.timeout` when the peer
never connects (`acceptOk = false`); on success the logging line reads
`project_name` and `engine_version` out of the infos. -/
def openConnection (target : List Char) (trace : List (List Char)) (acceptOk : Bool) :
    Except PyErr OpenedConn := do
  let pong ← pingReceive target trace
  match pong with
  | none => .error .connectionFailed
  | some pd => do
    let src ← pyIndex pd kSource
    let infos ← pyIndex pd kData
    if acceptOk then do
      let _ ← pyIndex infos kProjectName
      let _ ← pyIndex infos kEngineVersion
      .ok ⟨src, infos⟩
    else .error .socketTimeout

/-! ## Model of `ExecTypes` and concrete envelopes used as witnesses -/

/-- Model of `ExecTypes.EVALUATE_STATEMENT`. -/
def execTypeEvaluateStatement : List Char :=
  ['E','v','a','l','u','a','t','e','S','t','a','t','e','m','e','n','t']

/-- Type tag of the Pong replies Unreal sends back. -/
def tyPong : List Char := ['p','o','n','g']

/-- Example project name. -/
def pFoo : List Char := ['F','o','o']

/-- Data dict of an example Pong reply. -/
def pongFooData : Json :=
  Json.obj (.cons kProjectName (.str pFoo)
    (.cons kEngineVersion (.str ['5','.','3']) .nil))

/-- Example Pong reply envelope from a peer named Foo. -/
def pongFoo : Json :=
  Json.obj (.cons kType (.str tyPong)
    (.cons kSource (.str ['u','1'])
      (.cons kData pongFooData .nil)))

/-- Members of a minimal non-echo envelope of type `pong`. -/
def pongMinKvs : JObj := JObj.cons kType (Json.str tyPong) JObj.nil

/-- Minimal non-echo envelope of type `pong`. -/
def pongMin : Json := Json.obj pongMinKvs

/-- Minimal non-echo envelope on the command path (type differs from
`command`). -/
def crMin : Json := Json.obj (.cons kType (Json.str ['c','r']) .nil)

/-- Tail of `encodeV pongMin` after its opening brace, used to split the
encoding into two chunks. -/
def pongMinTail : List Char :=
  ['"','t','y','p','e','"',':',' ','"','p','o','n','g','"','}']

/-- An output entry `{"type": kind, "output": text}` as Unreal sends them. -/
def mkEntry (p : List Char × List Char) : Json :=
  Json.obj (.cons kType (.str p.1) (.cons kOutput (.str p.2) .nil))

/-! ## Character-level facts -/

/-- Guard on a parse suffix: it does not start with a digit, so maximal
munch of a number cannot run into it. -/
def noDigitHead : List Char → Bool
  | [] => true
  | d :: _ => !isDigit d

theorem toNat_digitChar (d : Nat) (h : d < 10) : (digitChar d).toNat = 48 + d := by
  interval_cases d <;> decide

theorem isDigit_digitChar (d : Nat) (h : d < 10) : isDigit (digitChar d) = true := by
  interval_cases d <;> decide

theorem digitVal_digitChar (d : Nat) (h : d < 10) : digitVal (digitChar d) = d := by
  interval_cases d <;> decide

theorem digit_facts (c : Char) (h : isDigit c = true) :
    isWs c = false ∧ (c = '{') = False ∧ (c = '[') = False ∧ (c = '"') = False ∧
    (c = 't') = False ∧ (c = 'f') = False ∧ (c = 'n') = False ∧ (c = '-') = False ∧
    (c = ']') = False := by
  simp only [isDigit, decide_eq_true_eq] at h
  have hne : ∀ k : Char, ¬(48 ≤ k.toNat ∧ k.toNat ≤ 57) → (c = k) = False := by
    intro k hk
    simp only [eq_iff_iff, iff_false]
    intro he
    subst he
    exact hk h
  refine ⟨?_, hne _ (by decide), hne _ (by decide), hne _ (by decide), hne _ (by decide),
    hne _ (by decide), hne _ (by decide), hne _ (by decide), hne _ (by decide)⟩
  simp only [isWs, hne ' ' (by decide), hne '\t' (by decide), hne '\n' (by decide),
    hne '\r' (by decide)]
  simp

/-! ## Whitespace lemmas -/

theorem skipWs_cons_of_not_ws (c : Char) (tl : List Char) (h : isWs c = false) :
    skipWs (c :: tl) = c :: tl := by
  simp [skipWs, h]

theorem skipWs_cons_of_ws (c : Char) (tl : List Char) (h : isWs c = true) :
    skipWs (c :: tl) = skipWs tl := by
  simp [skipWs, h]

theorem skipWs_append (cs t : List Char) (h : skipWs cs ≠ []) :
    skipWs (cs ++ t) = skipWs cs ++ t := by
  induction cs with
  | nil => simp [skipWs] at h
  | cons c tl ih =>
    rw [List.cons_append]
    by_cases hc : isWs c = true
    · rw [skipWs_cons_of_ws c tl hc] at h
      rw [skipWs_cons_of_ws c (tl ++ t) hc, skipWs_cons_of_ws c tl hc]
      exact ih h
    · rw [skipWs_cons_of_not_ws c (tl ++ t) (by simpa using hc),
        skipWs_cons_of_not_ws c tl (by simpa using hc), List.cons_append]

/-! ## Literal lemmas -/

theorem parseLit_append (l : List Char) : ∀ cs t r, parseLit l cs = some r →
    parseLit l (cs ++ t) = some (r ++ t) := by
  induction l with
  | nil =>
    intro cs t r h
    simp only [parseLit, Option.some.injEq] at h
    subst h
    rfl
  | cons x ls ih =>
    intro cs t r h
    match cs with
    | [] => simp [parseLit] at h
    | c :: ctl =>
      simp only [parseLit] at h
      rw [List.cons_append]
      simp only [parseLit]
      by_cases hc : c = x
      · rw [if_pos hc] at h
        rw [if_pos hc]
        exact ih ctl t r h
      · rw [if_neg hc] at h
        exact absurd h (by simp)

theorem parseLit_run (l t : List Char) : parseLit l (l ++ t) = some t := by
  induction l with
  | nil => rfl
  | cons x ls ih => simp [parseLit, ih]

/-! ## String lemmas -/

theorem strLoop_nil : strLoop [] = none := by
  conv_lhs => unfold strLoop

theorem strLoop_esc1 : strLoop ['\\'] = none := by
  conv_lhs => unfold strLoop
  rw [if_pos rfl]

theorem strLoop_esc (d : Char) (tl : List Char) :
    strLoop ('\\' :: d :: tl) =
      if d = '"' || d = '\\' then (strLoop tl).map (fun p => (d :: p.1, p.2)) else none := by
  conv_lhs => unfold strLoop
  rw [if_pos rfl]

theorem strLoop_quote (tl : List Char) : strLoop ('"' :: tl) = some ([], tl) := by
  conv_lhs => unfold strLoop
  rw [if_neg (show ¬('"' = '\\') by decide), if_pos rfl]

theorem strLoop_cons (c : Char) (tl : List Char) (hb : ¬ c = '\\') (hq : ¬ c = '"') :
    strLoop (c :: tl) =
      (if 32 ≤ c.toNat then (strLoop tl).map (fun p => (c :: p.1, p.2)) else none) := by
  conv_lhs => unfold strLoop
  rw [if_neg hb, if_neg hq]

theorem strLoop_append : ∀ cs t s r, strLoop cs = some (s, r) →
    strLoop (cs ++ t) = some (s, r ++ t) := by
  intro cs
  induction cs using strLoop.induct with
  | case1 => intro t s r h; rw [strLoop_nil] at h; simp at h
  | case2 => intro t s r h; rw [strLoop_esc1] at h; simp at h
  | case3 d tl2 hd ih =>
    intro t s r h
    rw [strLoop_esc, if_pos hd] at h
    rw [List.cons_append, List.cons_append, strLoop_esc, if_pos hd]
    match hs : strLoop tl2 with
    | none => rw [hs] at h; simp at h
    | some (s2, r2) =>
      rw [hs] at h
      simp only [Option.map_some', Option.some.injEq, Prod.mk.injEq] at h
      rw [ih t s2 r2 hs]
      simp only [Option.map_some', Option.some.injEq, Prod.mk.injEq]
      exact ⟨by rw [← h.1], by rw [← h.2]⟩
  | case4 d tl2 hd =>
    intro t s r h
    rw [strLoop_esc, if_neg hd] at h
    simp at h
  | case5 tl2 hq =>
    intro t s r h
    rw [strLoop_quote] at h
    simp only [Option.some.injEq, Prod.mk.injEq] at h
    rw [List.cons_append, strLoop_quote, ← h.1, ← h.2]
  | case6 d tl2 hb hq hp ih =>
    intro t s r h
    rw [strLoop_cons d tl2 hb hq, if_pos hp] at h
    rw [List.cons_append, strLoop_cons d (tl2 ++ t) hb hq, if_pos hp]
    match hs : strLoop tl2 with
    | none => rw [hs] at h; simp at h
    | some (s2, r2) =>
      rw [hs] at h
      simp only [Option.map_some', Option.some.injEq, Prod.mk.injEq] at h
      rw [ih t s2 r2 hs]
      simp only [Option.map_some', Option.some.injEq, Prod.mk.injEq]
      exact ⟨by rw [← h.1], by rw [← h.2]⟩
  | case7 d tl2 hb hq hp =>
    intro t s r h
    rw [strLoop_cons d tl2 hb hq, if_neg hp] at h
    simp at h

theorem strLoop_run : ∀ s t, validStr s = true → strLoop (escape s ++ '"' :: t) = some (s, t) := by
  intro s
  induction s with
  | nil =>
    intro t _
    rw [show escape [] = [] from rfl, List.nil_append, strLoop_quote]
  | cons c tl ih =>
    intro t h
    have hc : validChar c = true ∧ validStr tl = true := by
      simpa [validStr] using h
    by_cases hesc : (c = '"' || c = '\\') = true
    · rw [show escape (c :: tl) = escChar c ++ escape tl from rfl]
      rw [show escChar c = ['\\', c] from by simp [escChar, hesc]]
      rw [show (['\\', c] ++ escape tl) ++ '"' :: t = '\\' :: c :: (escape tl ++ '"' :: t) from by simp]
      rw [strLoop_esc, if_pos hesc, ih t hc.2]
      rfl
    · have hb : ¬ c = '\\' := by
        intro he; apply hesc; simp [he]
      have hq : ¬ c = '"' := by
        intro he; apply hesc; simp [he]
      rw [show escape (c :: tl) = escChar c ++ escape tl from rfl]
      rw [show escChar c = [c] from by simp [escChar, hesc]]
      rw [show ([c] ++ escape tl) ++ '"' :: t = c :: (escape tl ++ '"' :: t) from by simp]
      rw [strLoop_cons c _ hb hq]
      have h32 : 32 ≤ c.toNat := by
        have := hc.1
        simp only [validChar, decide_eq_true_eq] at this
        omega
      rw [if_pos h32, ih t hc.2]
      rfl

theorem parseString_append (cs t s r : List Char) (h : parseString cs = some (s, r)) :
    parseString (cs ++ t) = some (s, r ++ t) := by
  match cs with
  | [] => simp [parseString] at h
  | c :: tl =>
    simp only [parseString] at h
    rw [List.cons_append]
    simp only [parseString]
    by_cases hc : c = '"'
    · rw [if_pos hc] at h
      rw [if_pos hc]
      exact strLoop_append tl t s r h
    · rw [if_neg hc] at h
      simp at h

theorem parseString_run (k X : List Char) (h : validStr k = true) :
    parseString (encStr k ++ X) = some (k, X) := by
  rw [show encStr k ++ X = '"' :: (escape k ++ '"' :: X) from by simp [encStr]]
  simp only [parseString, if_pos rfl]
  exact strLoop_run k X h

/-! ## Digit-run lemmas -/

theorem takeDigits_append : ∀ cs t ds r, takeDigits cs = (ds, r) → r ≠ [] →
    takeDigits (cs ++ t) = (ds, r ++ t) := by
  intro cs
  induction cs with
  | nil =>
    intro t ds r h hr
    simp only [takeDigits, Prod.mk.injEq] at h
    rw [← h.2] at hr
    simp at hr
  | cons c tl ih =>
    intro t ds r h hr
    rw [List.cons_append]
    simp only [takeDigits] at h ⊢
    by_cases hd : isDigit c = true
    · rw [if_pos hd] at h
      rw [if_pos hd]
      match hg : takeDigits tl with
      | (ds1, r1) =>
        rw [hg] at h
        simp only [Prod.mk.injEq] at h
        rw [ih t ds1 r1 hg (by rw [← h.2] at hr; exact hr)]
        simp [← h.1, ← h.2]
    · rw [if_neg hd] at h
      rw [if_neg hd]
      simp only [Prod.mk.injEq] at h
      rw [← h.1, ← h.2]
      simp

theorem takeDigits_run : ∀ ds t, (∀ c ∈ ds, isDigit c = true) → noDigitHead t = true →
    takeDigits (ds ++ t) = (ds, t) := by
  intro ds
  induction ds with
  | nil =>
    intro t _ ht
    match t with
    | [] => rfl
    | d :: tl =>
      simp only [noDigitHead, Bool.not_eq_eq_eq_not, Bool.not_true] at ht
      simp [takeDigits, ht]
  | cons c tl ih =>
    intro t hd ht
    have hc : isDigit c = true := hd c (by simp)
    rw [List.cons_append]
    simp only [takeDigits, if_pos hc]
    rw [ih t (fun x hx => hd x (by simp [hx])) ht]

theorem digitsToNat_append_single (ds : List Char) (c : Char) :
    digitsToNat (ds ++ [c]) = 10 * digitsToNat ds + digitVal c := by
  simp [digitsToNat, List.foldl_append]
  omega

theorem natDigits_spec : ∀ f n, n < f →
    (∀ c ∈ natDigitsFuel f n, isDigit c = true) ∧ digitsToNat (natDigitsFuel f n) = n ∧
    natDigitsFuel f n ≠ [] := by
  intro f
  induction f with
  | zero => intro n h; omega
  | succ f ih =>
    intro n h
    by_cases h10 : n < 10
    · simp only [natDigitsFuel, if_pos h10]
      refine ⟨?_, ?_, by simp⟩
      · intro c hc
        simp only [List.mem_singleton] at hc
        subst hc
        exact isDigit_digitChar n h10
      · simp [digitsToNat, digitVal_digitChar n h10]
    · have hdiv : n / 10 < f := by
        have := Nat.div_lt_self (show 0 < n by omega) (show 1 < 10 by omega)
        omega
      obtain ⟨ha, hv, hne⟩ := ih (n / 10) hdiv
      simp only [natDigitsFuel, if_neg h10]
      refine ⟨?_, ?_, by simp⟩
      · intro c hc
        rcases List.mem_append.mp hc with h1 | h2
        · exact ha c h1
        · simp only [List.mem_singleton] at h2
          subst h2
          exact isDigit_digitChar _ (Nat.mod_lt _ (by omega))
      · rw [digitsToNat_append_single, hv, digitVal_digitChar _ (Nat.mod_lt _ (by omega))]
        omega

theorem natToDigits_spec (n : Nat) :
    (∀ c ∈ natToDigits n, isDigit c = true) ∧ digitsToNat (natToDigits n) = n ∧
    natToDigits n ≠ [] :=
  natDigits_spec (n + 1) n (by omega)

/-! ## Number lemmas -/

theorem parseNumber_append (cs t : List Char) (n : Int) (r : List Char)
    (h : parseNumber cs = some (n, r)) (hr : r ≠ []) :
    parseNumber (cs ++ t) = some (n, r ++ t) := by
  match cs with
  | [] => simp [parseNumber] at h
  | c :: tl =>
    rw [List.cons_append]
    simp only [parseNumber] at h ⊢
    by_cases hc : c = '-'
    · rw [if_pos hc] at h
      rw [if_pos hc]
      match hg : takeDigits tl with
      | ([], r0) => rw [hg] at h; simp at h
      | (d :: ds, r0) =>
        rw [hg] at h
        simp only [Option.some.injEq, Prod.mk.injEq] at h
        rw [takeDigits_append tl t (d :: ds) r0 hg (by rw [← h.2] at hr; exact hr)]
        simp [← h.1, ← h.2]
    · rw [if_neg hc] at h
      rw [if_neg hc]
      match hg : takeDigits (c :: tl) with
      | ([], r0) => rw [hg] at h; simp at h
      | (d :: ds, r0) =>
        rw [hg] at h
        simp only [Option.some.injEq, Prod.mk.injEq] at h
        rw [show c :: (tl ++ t) = (c :: tl) ++ t from rfl]
        rw [takeDigits_append (c :: tl) t (d :: ds) r0 hg (by rw [← h.2] at hr; exact hr)]
        simp [← h.1, ← h.2]

theorem parseNumber_run (i : Int) (t : List Char) (ht : noDigitHead t = true) :
    parseNumber (encodeInt i ++ t) = some (i, t) := by
  by_cases hneg : i < 0
  · obtain ⟨hall, hval, hne⟩ := natToDigits_spec i.natAbs
    match hnd : natToDigits i.natAbs with
    | [] => exact absurd hnd hne
    | d :: ds =>
      rw [hnd] at hall hval
      rw [show encodeInt i = '-' :: (d :: ds) from by unfold encodeInt; rw [if_pos hneg, hnd]]
      rw [List.cons_append]
      simp only [parseNumber]
      rw [if_pos trivial]
      rw [show d :: ds ++ t = (d :: ds) ++ t from rfl]
      rw [takeDigits_run (d :: ds) t hall ht]
      simp only [Option.some.injEq, Prod.mk.injEq, Int.ofNat_eq_natCast]
      refine ⟨?_, trivial⟩
      rw [hval]
      omega
  · obtain ⟨hall, hval, hne⟩ := natToDigits_spec i.toNat
    match hnd : natToDigits i.toNat with
    | [] => exact absurd hnd hne
    | d :: ds =>
      rw [hnd] at hall hval
      have hd : isDigit d = true := hall d (by simp)
      rw [show encodeInt i = d :: ds from by unfold encodeInt; rw [if_neg hneg, hnd]]
      rw [List.cons_append]
      simp only [parseNumber]
      rw [if_neg (show ¬ d = '-' from by
        have hf := (digit_facts d hd).2.2.2.2.2.2.2.1
        simp only [eq_iff_iff, iff_false] at hf
        exact hf)]
      rw [show d :: (ds ++ t) = (d :: ds) ++ t from rfl]
      rw [takeDigits_run (d :: ds) t hall ht]
      simp only [Option.some.injEq, Prod.mk.injEq, Int.ofNat_eq_natCast]
      refine ⟨?_, trivial⟩
      rw [hval]
      omega

/-! ## Heads of encodings -/

theorem encodeV_head (j : Json) : ∃ c r, encodeV j = c :: r ∧ isWs c = false ∧ (c = ']') = False := by
  cases j with
  | null => exact ⟨'n', ['u','l','l'], by simp [encodeV, litNull], by decide, by decide⟩
  | bool b =>
    cases b with
    | true => exact ⟨'t', ['r','u','e'], by simp [encodeV, litTrue], by decide, by decide⟩
    | false => exact ⟨'f', ['a','l','s','e'], by simp [encodeV, litFalse], by decide, by decide⟩
  | num i =>
    by_cases hneg : i < 0
    · exact ⟨'-', natToDigits i.natAbs, by simp [encodeV, encodeInt, hneg], by decide, by decide⟩
    · obtain ⟨hall, _, hne⟩ := natToDigits_spec i.toNat
      match hnd : natToDigits i.toNat with
      | [] => exact absurd hnd hne
      | d :: ds =>
        have hd : isDigit d = true := by
          rw [hnd] at hall
          exact hall d (by simp)
        have hf := digit_facts d hd
        exact ⟨d, ds, by simp [encodeV, encodeInt, hneg, hnd], hf.1, hf.2.2.2.2.2.2.2.2⟩
  | str s => exact ⟨'"', escape s ++ ['"'], by simp [encodeV, encStr], by decide, by decide⟩
  | arr a => exact ⟨'[', encodeA a ++ [']'], by simp [encodeV], by decide, by decide⟩
  | obj o => exact ⟨'{', encodeO o ++ ['}'], by simp [encodeV], by decide, by decide⟩

theorem encodeO_cons_head (k : List Char) (v : Json) (tl : JObj) :
    ∃ rest, encodeO (JObj.cons k v tl) = '"' :: rest := by
  refine ⟨escape k ++ ['"'] ++ (':' :: ' ' :: encodeV v ++
    ((match tl with | .nil => [] | _ => [',', ' ']) ++ encodeO tl)), ?_⟩
  simp [encodeO, encStr]

theorem encodeA_cons_head (x : Json) (tl : JArr) :
    ∃ c rest, encodeA (JArr.cons x tl) = c :: rest ∧ isWs c = false ∧ (c = ']') = False := by
  obtain ⟨c, r, he, hw, hb⟩ := encodeV_head x
  refine ⟨c, r ++ ((match tl with | .nil => [] | _ => [',', ' ']) ++ encodeA tl), ?_, hw, hb⟩
  simp [encodeA, he]

/-! ## Fuel-level step lemmas -/

theorem parseF_pv_succ (f : Nat) : (parseF (f + 1)).pv = valStep (parseF f) := rfl

theorem parseF_pm_succ (f : Nat) : (parseF (f + 1)).pm = memStep (parseF f) := rfl

theorem parseF_pi_succ (f : Nat) : (parseF (f + 1)).pi = itemStep (parseF f) := rfl

theorem parseF_pv_zero (cs : List Char) : (parseF 0).pv cs = none := rfl

theorem parseF_pm_zero (cs : List Char) : (parseF 0).pm cs = none := rfl

theorem parseF_pi_zero (cs : List Char) : (parseF 0).pi cs = none := rfl

theorem parseF_pv_nil (f : Nat) : (parseF f).pv [] = none := by
  cases f with
  | zero => rfl
  | succ f =>
    rw [parseF_pv_succ]
    simp [valStep, skipWs]

theorem parseF_pm_nil (f : Nat) : (parseF f).pm [] = none := by
  cases f with
  | zero => rfl
  | succ f =>
    rw [parseF_pm_succ]
    simp [memStep, parseString]

theorem parseF_pi_nil (f : Nat) : (parseF f).pi [] = none := by
  cases f with
  | zero => rfl
  | succ f =>
    rw [parseF_pi_succ]
    simp [itemStep, parseF_pv_nil f]

theorem parseF_pv_ws (f : Nat) (c : Char) (cs : List Char) (h : isWs c = true) :
    (parseF f).pv (c :: cs) = (parseF f).pv cs := by
  cases f with
  | zero => rfl
  | succ f =>
    rw [parseF_pv_succ]
    simp only [valStep, skipWs_cons_of_ws c cs h]

/-! ## Input-extension (monotone-append) property of the parser

If a parse succeeds on `cs` leaving remainder `r`, the same parse on
`cs ++ t` succeeds leaving `r ++ t` — provided, for a top-level number,
that the remainder is nonempty (the number would otherwise munch digits of
`t`). Fuel may grow on the extended side, which also makes this the
fuel-monotonicity lemma (`t = []`). -/

theorem parse_ext : ∀ fB : Nat,
    (∀ fA cs t v r, fA ≤ fB → (parseF fA).pv cs = some (v, r) →
      ((∃ n, v = Json.num n) → r ≠ []) → (parseF fB).pv (cs ++ t) = some (v, r ++ t)) ∧
    (∀ fA cs t o r, fA ≤ fB → (parseF fA).pm cs = some (o, r) →
      (parseF fB).pm (cs ++ t) = some (o, r ++ t)) ∧
    (∀ fA cs t a r, fA ≤ fB → (parseF fA).pi cs = some (a, r) →
      (parseF fB).pi (cs ++ t) = some (a, r ++ t)) := by
  intro fB
  induction fB with
  | zero =>
    refine ⟨?_, ?_, ?_⟩
    · intro fA cs t v r hle h _
      interval_cases fA
      rw [parseF_pv_zero] at h
      simp at h
    · intro fA cs t o r hle h
      interval_cases fA
      rw [parseF_pm_zero] at h
      simp at h
    · intro fA cs t a r hle h
      interval_cases fA
      rw [parseF_pi_zero] at h
      simp at h
  | succ fB ih =>
    refine ⟨?_, ?_, ?_⟩
    · -- value parser
      intro fA cs t v r hle h hnum
      match fA, hle with
      | 0, _ => rw [parseF_pv_zero] at h; simp at h
      | g + 1, hle =>
        have hg : g ≤ fB := by omega
        rw [parseF_pv_succ] at h
        rw [parseF_pv_succ]
        simp only [valStep] at h
        simp only [valStep]
        match hsk : skipWs cs with
        | [] => rw [hsk] at h; simp at h
        | c :: tl =>
          rw [hsk] at h
          simp only [] at h
          have hsk2 : skipWs (cs ++ t) = c :: (tl ++ t) := by
            rw [skipWs_append cs t (by rw [hsk]; simp), hsk, List.cons_append]
          rw [hsk2]
          simp only []
          by_cases hc1 : c = '{'
          · rw [if_pos hc1] at h
            rw [if_pos hc1]
            match hsk3 : skipWs tl with
            | [] => rw [hsk3] at h; simp at h
            | d :: tl2 =>
              rw [hsk3] at h
              simp only [] at h
              have hsk4 : skipWs (tl ++ t) = d :: (tl2 ++ t) := by
                rw [skipWs_append tl t (by rw [hsk3]; simp), hsk3, List.cons_append]
              rw [hsk4]
              simp only []
              by_cases hd : d = '}'
              · rw [if_pos hd] at h
                rw [if_pos hd]
                simp only [Option.some.injEq, Prod.mk.injEq] at h
                rw [← h.1, ← h.2]
              · rw [if_neg hd] at h
                rw [if_neg hd]
                match hm : (parseF g).pm (d :: tl2) with
                | none => rw [hm] at h; simp at h
                | some (o, ro) =>
                  rw [hm] at h
                  simp only [Option.some.injEq, Prod.mk.injEq] at h
                  have := ih.2.1 g (d :: tl2) t o ro hg hm
                  rw [List.cons_append] at this
                  rw [this, ← h.1, ← h.2]
          · rw [if_neg hc1] at h
            rw [if_neg hc1]
            by_cases hc2 : c = '['
            · rw [if_pos hc2] at h
              rw [if_pos hc2]
              match hsk3 : skipWs tl with
              | [] => rw [hsk3] at h; simp at h
              | d :: tl2 =>
                rw [hsk3] at h
                simp only [] at h
                have hsk4 : skipWs (tl ++ t) = d :: (tl2 ++ t) := by
                  rw [skipWs_append tl t (by rw [hsk3]; simp), hsk3, List.cons_append]
                rw [hsk4]
                simp only []
                by_cases hd : d = ']'
                · rw [if_pos hd] at h
                  rw [if_pos hd]
                  simp only [Option.some.injEq, Prod.mk.injEq] at h
                  rw [← h.1, ← h.2]
                · rw [if_neg hd] at h
                  rw [if_neg hd]
                  match hm : (parseF g).pi (d :: tl2) with
                  | none => rw [hm] at h; simp at h
                  | some (a, ra) =>
                    rw [hm] at h
                    simp only [Option.some.injEq, Prod.mk.injEq] at h
                    have := ih.2.2 g (d :: tl2) t a ra hg hm
                    rw [List.cons_append] at this
                    rw [this, ← h.1, ← h.2]
            · rw [if_neg hc2] at h
              rw [if_neg hc2]
              by_cases hc3 : c = '"'
              · rw [if_pos hc3] at h
                rw [if_pos hc3]
                match hs : strLoop tl with
                | none => rw [hs] at h; simp at h
                | some (s, rs) =>
                  rw [hs] at h
                  simp only [Option.some.injEq, Prod.mk.injEq] at h
                  rw [strLoop_append tl t s rs hs, ← h.1, ← h.2]
              · rw [if_neg hc3] at h
                rw [if_neg hc3]
                by_cases hc4 : c = 't'
                · rw [if_pos hc4] at h
                  rw [if_pos hc4]
                  match hl : parseLit ['r','u','e'] tl with
                  | none => rw [hl] at h; simp at h
                  | some rl =>
                    rw [hl] at h
                    simp only [Option.some.injEq, Prod.mk.injEq] at h
                    rw [parseLit_append ['r','u','e'] tl t rl hl, ← h.1, ← h.2]
                · rw [if_neg hc4] at h
                  rw [if_neg hc4]
                  by_cases hc5 : c = 'f'
                  · rw [if_pos hc5] at h
                    rw [if_pos hc5]
                    match hl : parseLit ['a','l','s','e'] tl with
                    | none => rw [hl] at h; simp at h
                    | some rl =>
                      rw [hl] at h
                      simp only [Option.some.injEq, Prod.mk.injEq] at h
                      rw [parseLit_append ['a','l','s','e'] tl t rl hl, ← h.1, ← h.2]
                  · rw [if_neg hc5] at h
                    rw [if_neg hc5]
                    by_cases hc6 : c = 'n'
                    · rw [if_pos hc6] at h
                      rw [if_pos hc6]
                      match hl : parseLit ['u','l','l'] tl with
                      | none => rw [hl] at h; simp at h
                      | some rl =>
                        rw [hl] at h
                        simp only [Option.some.injEq, Prod.mk.injEq] at h
                        rw [parseLit_append ['u','l','l'] tl t rl hl, ← h.1, ← h.2]
                    · rw [if_neg hc6] at h
                      rw [if_neg hc6]
                      match hn : parseNumber (c :: tl) with
                      | none => rw [hn] at h; simp at h
                      | some (nn, rn) =>
                        rw [hn] at h
                        simp only [Option.some.injEq, Prod.mk.injEq] at h
                        have hrn : rn ≠ [] := by
                          rw [h.2]
                          exact hnum ⟨nn, h.1.symm⟩
                        have := parseNumber_append (c :: tl) t nn rn hn hrn
                        rw [List.cons_append] at this
                        rw [this, ← h.1, ← h.2]
    · -- member parser
      intro fA cs t o r hle h
      match fA, hle with
      | 0, _ => rw [parseF_pm_zero] at h; simp at h
      | g + 1, hle =>
        have hg : g ≤ fB := by omega
        rw [parseF_pm_succ] at h
        rw [parseF_pm_succ]
        simp only [memStep] at h
        simp only [memStep]
        match hps : parseString cs with
        | none => rw [hps] at h; simp at h
        | some (k, r1) =>
          rw [hps] at h
          simp only [] at h
          rw [parseString_append cs t k r1 hps]
          simp only []
          match hsk : skipWs r1 with
          | [] => rw [hsk] at h; simp at h
          | c :: r2 =>
            rw [hsk] at h
            simp only [] at h
            have hsk2 : skipWs (r1 ++ t) = c :: (r2 ++ t) := by
              rw [skipWs_append r1 t (by rw [hsk]; simp), hsk, List.cons_append]
            rw [hsk2]
            simp only []
            by_cases hc : c = ':'
            · rw [if_pos hc] at h
              rw [if_pos hc]
              match hv : (parseF g).pv r2 with
              | none => rw [hv] at h; simp at h
              | some (v, r3) =>
                rw [hv] at h
                simp only [] at h
                match hsk3 : skipWs r3 with
                | [] => rw [hsk3] at h; simp at h
                | d :: r4 =>
                  rw [hsk3] at h
                  simp only [] at h
                  have hr3 : r3 ≠ [] := by
                    intro he
                    rw [he] at hsk3
                    simp [skipWs] at hsk3
                  have hvext := ih.1 g r2 t v r3 hg hv (fun _ => hr3)
                  rw [hvext]
                  simp only []
                  have hsk4 : skipWs (r3 ++ t) = d :: (r4 ++ t) := by
                    rw [skipWs_append r3 t (by rw [hsk3]; simp), hsk3, List.cons_append]
                  rw [hsk4]
                  simp only []
                  by_cases hd : d = ','
                  · rw [if_pos hd] at h
                    rw [if_pos hd]
                    match hm : (parseF g).pm (skipWs r4) with
                    | none => rw [hm] at h; simp at h
                    | some (o2, r5) =>
                      rw [hm] at h
                      simp only [Option.some.injEq, Prod.mk.injEq] at h
                      have hr4 : skipWs r4 ≠ [] := by
                        intro he
                        rw [he, parseF_pm_nil] at hm
                        simp at hm
                      have hsk5 : skipWs (r4 ++ t) = skipWs r4 ++ t := skipWs_append r4 t hr4
                      rw [hsk5, ih.2.1 g (skipWs r4) t o2 r5 hg hm, ← h.1, ← h.2]
                  · rw [if_neg hd] at h
                    rw [if_neg hd]
                    by_cases hd2 : d = '}'
                    · rw [if_pos hd2] at h
                      rw [if_pos hd2]
                      simp only [Option.some.injEq, Prod.mk.injEq] at h
                      rw [← h.1, ← h.2]
                    · rw [if_neg hd2] at h
                      simp at h
            · rw [if_neg hc] at h
              simp at h
    · -- item parser
      intro fA cs t a r hle h
      match fA, hle with
      | 0, _ => rw [parseF_pi_zero] at h; simp at h
      | g + 1, hle =>
        have hg : g ≤ fB := by omega
        rw [parseF_pi_succ] at h
        rw [parseF_pi_succ]
        simp only [itemStep] at h
        simp only [itemStep]
        match hv : (parseF g).pv cs with
        | none => rw [hv] at h; simp at h
        | some (v, r1) =>
          rw [hv] at h
          simp only [] at h
          match hsk : skipWs r1 with
          | [] => rw [hsk] at h; simp at h
          | d :: r2 =>
            rw [hsk] at h
            simp only [] at h
            have hr1 : r1 ≠ [] := by
              intro he
              rw [he] at hsk
              simp [skipWs] at hsk
            have hvext := ih.1 g cs t v r1 hg hv (fun _ => hr1)
            rw [hvext]
            simp only []
            have hsk2 : skipWs (r1 ++ t) = d :: (r2 ++ t) := by
              rw [skipWs_append r1 t (by rw [hsk]; simp), hsk, List.cons_append]
            rw [hsk2]
            simp only []
            by_cases hd : d = ','
            · rw [if_pos hd] at h
              rw [if_pos hd]
              match hi2 : (parseF g).pi (skipWs r2) with
              | none => rw [hi2] at h; simp at h
              | some (a2, r3) =>
                rw [hi2] at h
                simp only [Option.some.injEq, Prod.mk.injEq] at h
                have hr2 : skipWs r2 ≠ [] := by
                  intro he
                  rw [he, parseF_pi_nil] at hi2
                  simp at hi2
                rw [skipWs_append r2 t hr2, ih.2.2 g (skipWs r2) t a2 r3 hg hi2, ← h.1, ← h.2]
            · rw [if_neg hd] at h
              rw [if_neg hd]
              by_cases hd2 : d = ']'
              · rw [if_pos hd2] at h
                rw [if_pos hd2]
                simp only [Option.some.injEq, Prod.mk.injEq] at h
                rw [← h.1, ← h.2]
              · rw [if_neg hd2] at h
                simp at h

/-! ## Encoder-parser roundtrip -/

/-- Suffix guard for the roundtrip: after an encoded number the suffix must
not begin with a digit (for any other value the token is delimited). -/
def numOkSuffix (j : Json) (t : List Char) : Prop :=
  match j with
  | .num _ => noDigitHead t = true
  | _ => True

theorem numOkSuffix_cons (v : Json) (d : Char) (zr : List Char) (hd : isDigit d = false) :
    numOkSuffix v (d :: zr) := by
  cases v <;> simp [numOkSuffix, noDigitHead, hd]

theorem parse_run : ∀ f : Nat,
    (∀ j t, validV j = true → sizeV j ≤ f → numOkSuffix j t →
      (parseF f).pv (encodeV j ++ t) = some (j, t)) ∧
    (∀ o t, validO o = true → o ≠ JObj.nil → sizeO o ≤ f →
      (parseF f).pm (encodeO o ++ '}' :: t) = some (o, t)) ∧
    (∀ a t, validA a = true → a ≠ JArr.nil → sizeA a ≤ f →
      (parseF f).pi (encodeA a ++ ']' :: t) = some (a, t)) := by
  intro f
  induction f with
  | zero =>
    refine ⟨?_, ?_, ?_⟩
    · intro j t _ hsz _
      exact absurd hsz (by cases j <;> simp [sizeV])
    · intro o t _ hne hsz
      match o with
      | JObj.nil => exact absurd rfl hne
      | JObj.cons k v tl => simp [sizeO] at hsz
    · intro a t _ hne hsz
      match a with
      | JArr.nil => exact absurd rfl hne
      | JArr.cons x tl => simp [sizeA] at hsz
  | succ f ih =>
    refine ⟨?_, ?_, ?_⟩
    · -- values
      intro j t hv hsz hnum
      match j with
      | Json.null => rfl
      | Json.bool true => rfl
      | Json.bool false => rfl
      | Json.num i =>
        have ht : noDigitHead t = true := hnum
        by_cases hneg : i < 0
        · have henc : encodeV (Json.num i) = '-' :: natToDigits i.natAbs := by
            simp [encodeV, encodeInt, hneg]
          rw [henc, List.cons_append, parseF_pv_succ]
          simp only [valStep]
          rw [skipWs_cons_of_not_ws _ _ (by decide)]
          try simp only []
          rw [if_neg (by decide), if_neg (by decide), if_neg (by decide), if_neg (by decide),
            if_neg (by decide), if_neg (by decide)]
          rw [← List.cons_append]
          rw [show ('-' : Char) :: natToDigits i.natAbs = encodeInt i from by
            simp [encodeInt, hneg]]
          rw [parseNumber_run i t ht]
        · obtain ⟨hall, _, hne⟩ := natToDigits_spec i.toNat
          match hnd : natToDigits i.toNat with
          | [] => exact absurd hnd hne
          | d :: ds =>
            have hdd : isDigit d = true := by
              rw [hnd] at hall
              exact hall d (by simp)
            have hf := digit_facts d hdd
            have henc : encodeV (Json.num i) = d :: ds := by
              simp [encodeV, encodeInt, hneg, hnd]
            rw [henc, List.cons_append, parseF_pv_succ]
            simp only [valStep]
            rw [skipWs_cons_of_not_ws _ _ hf.1]
            try simp only []
            rw [if_neg (by simp [hf.2.1]), if_neg (by simp [hf.2.2.1]),
              if_neg (by simp [hf.2.2.2.1]), if_neg (by simp [hf.2.2.2.2.1]),
              if_neg (by simp [hf.2.2.2.2.2.1]), if_neg (by simp [hf.2.2.2.2.2.2.1])]
            rw [← List.cons_append]
            rw [show d :: ds = encodeInt i from by simp [encodeInt, hneg, hnd]]
            rw [parseNumber_run i t ht]
      | Json.str s =>
        have hvs : validStr s = true := by simpa [validV] using hv
        have henc : encodeV (Json.str s) ++ t = '"' :: (escape s ++ '"' :: t) := by
          simp [encodeV, encStr]
        rw [henc, parseF_pv_succ]
        simp only [valStep]
        rw [skipWs_cons_of_not_ws _ _ (by decide)]
        try simp only []
        rw [if_neg (by decide), if_neg (by decide), if_pos (by trivial)]
        rw [strLoop_run s t hvs]
      | Json.arr JArr.nil => rfl
      | Json.arr (JArr.cons x tl) =>
        have hva : validA (JArr.cons x tl) = true := by simpa [validV] using hv
        have hsa : sizeA (JArr.cons x tl) ≤ f := by
          simp only [sizeV] at hsz
          omega
        obtain ⟨c0, r0, hA, hw0, hb0⟩ := encodeA_cons_head x tl
        have henc : encodeV (Json.arr (JArr.cons x tl)) ++ t =
            '[' :: (encodeA (JArr.cons x tl) ++ ']' :: t) := by
          simp [encodeV]
        rw [henc, parseF_pv_succ]
        simp only [valStep]
        rw [skipWs_cons_of_not_ws _ _ (by decide)]
        try simp only []
        rw [if_neg (by decide), if_pos (by trivial)]
        rw [show encodeA (JArr.cons x tl) ++ ']' :: t = c0 :: (r0 ++ ']' :: t) from by
          rw [hA]; simp]
        rw [skipWs_cons_of_not_ws _ _ hw0]
        try simp only []
        rw [if_neg (by simp [hb0])]
        rw [show c0 :: (r0 ++ ']' :: t) = encodeA (JArr.cons x tl) ++ ']' :: t from by
          rw [hA]; simp]
        rw [ih.2.2 (JArr.cons x tl) t hva (by simp) hsa]
      | Json.obj JObj.nil => rfl
      | Json.obj (JObj.cons k v tl) =>
        have hvo : validO (JObj.cons k v tl) = true := by simpa [validV] using hv
        have hso : sizeO (JObj.cons k v tl) ≤ f := by
          simp only [sizeV] at hsz
          omega
        obtain ⟨r0, hO⟩ := encodeO_cons_head k v tl
        have henc : encodeV (Json.obj (JObj.cons k v tl)) ++ t =
            '{' :: (encodeO (JObj.cons k v tl) ++ '}' :: t) := by
          simp [encodeV]
        rw [henc, parseF_pv_succ]
        simp only [valStep]
        rw [skipWs_cons_of_not_ws _ _ (by decide)]
        try simp only []
        rw [if_pos (by trivial)]
        rw [show encodeO (JObj.cons k v tl) ++ '}' :: t = '"' :: (r0 ++ '}' :: t) from by
          rw [hO]; simp]
        rw [skipWs_cons_of_not_ws _ _ (by decide)]
        try simp only []
        rw [if_neg (by decide)]
        rw [show ('"' : Char) :: (r0 ++ '}' :: t) = encodeO (JObj.cons k v tl) ++ '}' :: t from by
          rw [hO]; simp]
        rw [ih.2.1 (JObj.cons k v tl) t hvo (by simp) hso]
    · -- object members
      intro o t hv hne hsz
      match o with
      | JObj.nil => exact absurd rfl hne
      | JObj.cons k v tl =>
        have hvk : validStr k = true ∧ validV v = true ∧ validO tl = true := by
          simpa [validO, Bool.and_eq_true, and_assoc] using hv
        have hsv : sizeV v ≤ f := by
          simp only [sizeO] at hsz
          omega
        have hst : sizeO tl ≤ f := by
          simp only [sizeO] at hsz
          omega
        rw [parseF_pm_succ]
        simp only [memStep]
        match tl with
        | JObj.nil =>
          have henc : encodeO (JObj.cons k v JObj.nil) ++ '}' :: t =
              encStr k ++ (':' :: ' ' :: (encodeV v ++ '}' :: t)) := by
            simp [encodeO]
          rw [henc, parseString_run k _ hvk.1]
          try simp only []
          rw [skipWs_cons_of_not_ws _ _ (by decide)]
          try simp only []
          rw [if_pos (by trivial)]
          rw [parseF_pv_ws f ' ' _ (by decide)]
          rw [ih.1 v ('}' :: t) hvk.2.1 hsv (numOkSuffix_cons v '}' t (by decide))]
          try simp only []
          rw [skipWs_cons_of_not_ws _ _ (by decide)]
          try simp only []
          rw [if_neg (by decide), if_pos (by trivial)]
        | JObj.cons k2 v2 tl2 =>
          obtain ⟨r0, hO⟩ := encodeO_cons_head k2 v2 tl2
          have henc : encodeO (JObj.cons k v (JObj.cons k2 v2 tl2)) ++ '}' :: t =
              encStr k ++ (':' :: ' ' :: (encodeV v ++ ',' :: ' ' ::
                (encodeO (JObj.cons k2 v2 tl2) ++ '}' :: t))) := by
            simp [encodeO]
          rw [henc, parseString_run k _ hvk.1]
          try simp only []
          rw [skipWs_cons_of_not_ws _ _ (by decide)]
          try simp only []
          rw [if_pos (by trivial)]
          rw [parseF_pv_ws f ' ' _ (by decide)]
          rw [ih.1 v _ hvk.2.1 hsv (numOkSuffix_cons v ',' _ (by decide))]
          try simp only []
          rw [skipWs_cons_of_not_ws _ _ (by decide)]
          try simp only []
          rw [if_pos (by trivial)]
          rw [skipWs_cons_of_ws _ _ (by decide)]
          rw [show skipWs (encodeO (JObj.cons k2 v2 tl2) ++ '}' :: t) =
              encodeO (JObj.cons k2 v2 tl2) ++ '}' :: t from by
            rw [hO, List.cons_append]
            exact skipWs_cons_of_not_ws _ _ (by decide)]
          rw [ih.2.1 (JObj.cons k2 v2 tl2) t hvk.2.2 (by simp) hst]
    · -- array items
      intro a t hv hne hsz
      match a with
      | JArr.nil => exact absurd rfl hne
      | JArr.cons x tl =>
        have hvx : validV x = true ∧ validA tl = true := by
          simpa [validA, Bool.and_eq_true] using hv
        have hsv : sizeV x ≤ f := by
          simp only [sizeA] at hsz
          omega
        have hst : sizeA tl ≤ f := by
          simp only [sizeA] at hsz
          omega
        rw [parseF_pi_succ]
        simp only [itemStep]
        match tl with
        | JArr.nil =>
          have henc : encodeA (JArr.cons x JArr.nil) ++ ']' :: t = encodeV x ++ ']' :: t := by
            simp [encodeA]
          rw [henc]
          rw [ih.1 x (']' :: t) hvx.1 hsv (numOkSuffix_cons x ']' t (by decide))]
          try simp only []
          rw [skipWs_cons_of_not_ws _ _ (by decide)]
          try simp only []
          rw [if_neg (by decide), if_pos (by trivial)]
        | JArr.cons x2 tl2 =>
          obtain ⟨c0, r0, hA, hw0, _⟩ := encodeA_cons_head x2 tl2
          have henc : encodeA (JArr.cons x (JArr.cons x2 tl2)) ++ ']' :: t =
              encodeV x ++ ',' :: ' ' :: (encodeA (JArr.cons x2 tl2) ++ ']' :: t) := by
            simp [encodeA]
          rw [henc]
          rw [ih.1 x _ hvx.1 hsv (numOkSuffix_cons x ',' _ (by decide))]
          try simp only []
          rw [skipWs_cons_of_not_ws _ _ (by decide)]
          try simp only []
          rw [if_pos (by trivial)]
          rw [skipWs_cons_of_ws _ _ (by decide)]
          rw [show skipWs (encodeA (JArr.cons x2 tl2) ++ ']' :: t) =
              encodeA (JArr.cons x2 tl2) ++ ']' :: t from by
            rw [hA, List.cons_append]
            exact skipWs_cons_of_not_ws _ _ hw0]
          rw [ih.2.2 (JArr.cons x2 tl2) t hvx.2 (by simp) hst]

/-! ## Size bounds and `loads` facts -/

theorem encodeInt_ne_nil (i : Int) : encodeInt i ≠ [] := by
  unfold encodeInt
  by_cases hneg : i < 0
  · rw [if_pos hneg]
    simp
  · rw [if_neg hneg]
    exact (natToDigits_spec i.toNat).2.2

mutual
theorem sizeV_le : ∀ j : Json, sizeV j ≤ (encodeV j).length
  | .null => by simp [sizeV, encodeV, litNull]
  | .bool b => by cases b <;> simp [sizeV, encodeV, litTrue, litFalse]
  | .num i => by
      have h := encodeInt_ne_nil i
      have : 1 ≤ (encodeInt i).length := by
        cases hE : encodeInt i with
        | nil => exact absurd hE h
        | cons a tl => simp
      simp only [sizeV, encodeV]
      omega
  | .str s => by simp [sizeV, encodeV, encStr]
  | .arr a => by
      have h := sizeA_le a
      simp only [sizeV, encodeV, List.length_cons, List.length_append, List.length_singleton]
      omega
  | .obj o => by
      have h := sizeO_le o
      simp only [sizeV, encodeV, List.length_cons, List.length_append, List.length_singleton]
      omega
theorem sizeA_le : ∀ a : JArr, sizeA a ≤ (encodeA a).length + 1
  | .nil => by simp [sizeA]
  | .cons x tl => by
      have h1 := sizeV_le x
      have h2 := sizeA_le tl
      cases tl <;> simp only [sizeA, encodeA, List.length_append, List.length_cons,
        List.length_nil] at h2 ⊢ <;> omega
theorem sizeO_le : ∀ o : JObj, sizeO o ≤ (encodeO o).length + 1
  | .nil => by simp [sizeO]
  | .cons k v tl => by
      have h1 := sizeV_le v
      have h2 := sizeO_le tl
      cases tl <;> simp only [sizeO, encodeO, List.length_append, List.length_cons,
        List.length_nil] at h2 ⊢ <;> omega
end

theorem loads_enc (j : Json) (hv : validV j = true) : loads (encodeV j) = some j := by
  unfold loads
  have hsz : sizeV j ≤ (encodeV j).length + 1 := le_trans (sizeV_le j) (by omega)
  have hrun := (parse_run ((encodeV j).length + 1)).1 j [] hv hsz
    (by cases j <;> simp [numOkSuffix, noDigitHead])
  rw [List.append_nil] at hrun
  rw [hrun]
  simp [skipWs]

theorem parseF_pv_brace (f : Nat) (tl : List Char) (v : Json) (r : List Char)
    (h : (parseF f).pv ('{' :: tl) = some (v, r)) : ∃ o, v = Json.obj o := by
  match f with
  | 0 => rw [parseF_pv_zero] at h; simp at h
  | g + 1 =>
    rw [parseF_pv_succ] at h
    simp only [valStep] at h
    rw [skipWs_cons_of_not_ws _ _ (by decide)] at h
    try simp only [] at h
    rw [if_pos (by trivial)] at h
    match hsk : skipWs tl with
    | [] => rw [hsk] at h; simp at h
    | d :: tl2 =>
      rw [hsk] at h
      try simp only [] at h
      by_cases hd : d = '}'
      · rw [if_pos hd] at h
        simp only [Option.some.injEq, Prod.mk.injEq] at h
        exact ⟨JObj.nil, h.1.symm⟩
      · rw [if_neg hd] at h
        match hm : (parseF g).pm (d :: tl2) with
        | none => rw [hm] at h; simp at h
        | some (o, ro) =>
          rw [hm] at h
          simp only [Option.some.injEq, Prod.mk.injEq] at h
          exact ⟨o, h.1.symm⟩

/-- A proper nonempty prefix of the encoding of a JSON object never parses:
the receive loops keep accumulating (the `JSONDecodeError` / continue
path). -/
theorem loads_prefix_none (o : JObj) (c1 c2 : List Char)
    (hv : validO o = true) (hsplit : encodeV (Json.obj o) = c1 ++ c2)
    (h1 : c1 ≠ []) (h2 : c2 ≠ []) : loads c1 = none := by
  cases hL : loads c1 with
  | none => rfl
  | some v =>
    exfalso
    unfold loads at hL
    match hp : (parseF (c1.length + 1)).pv c1 with
    | none => rw [hp] at hL; simp at hL
    | some (w, r) =>
      rw [hp] at hL
      try simp only [] at hL
      by_cases hws : skipWs r = []
      · -- c1 begins with the opening brace of the object
        obtain ⟨tl, rfl⟩ : ∃ tl, c1 = '{' :: tl := by
          have hx : encodeV (Json.obj o) = '{' :: (encodeO o ++ ['}']) := by simp [encodeV]
          rw [hx] at hsplit
          match c1 with
          | [] => exact absurd rfl h1
          | a :: tl =>
            rw [List.cons_append] at hsplit
            exact ⟨tl, by rw [(List.cons.injEq _ _ _ _).mp hsplit.symm |>.1]⟩
        obtain ⟨o2, rfl⟩ := parseF_pv_brace _ tl w r hp
        have hlen : (encodeV (Json.obj o)).length = ('{' :: tl).length + c2.length := by
          rw [hsplit, List.length_append]
        have hext := (parse_ext ((encodeV (Json.obj o)).length + 1)).1
          (('{' :: tl).length + 1) ('{' :: tl) c2 (Json.obj o2) r
          (by omega) hp (by rintro ⟨n, hn⟩; cases hn)
        have hrun := (parse_run ((encodeV (Json.obj o)).length + 1)).1 (Json.obj o) []
          (by simpa [validV] using hv)
          (le_trans (sizeV_le (Json.obj o)) (by omega))
          (by simp [numOkSuffix])
        rw [show (encodeV (Json.obj o)).length + 1 = ('{' :: tl ++ c2).length + 1 from by
          rw [hsplit]] at hext
        rw [List.append_nil, hsplit, hext] at hrun
        simp only [Option.some.injEq, Prod.mk.injEq] at hrun
        have : r ++ c2 = [] := hrun.2
        simp only [List.append_eq_nil] at this
        exact h2 this.2
      · rw [if_neg hws] at hL
        simp at hL

/-! ## Receive-loop invariants -/

theorem isStrEq_eq_true (v : Json) (s : List Char) (h : isStrEq v s = true) : v = Json.str s := by
  match v with
  | .str u =>
    simp only [isStrEq, decide_eq_true_eq] at h
    rw [h]
  | .null | .bool _ | .num _ | .arr _ | .obj _ => simp [isStrEq] at h

theorem cmdLoop_type : ∀ (chunks : List (List Char)) (acc : List Char) (j : Json),
    cmdLoop acc chunks = .ok (some j) →
    ∃ ty, pyIndex j kType = .ok ty ∧ isStrEq ty tyCommand = false := by
  intro chunks
  induction chunks with
  | nil =>
    intro acc j h
    simp [cmdLoop] at h
  | cons c rest ih =>
    intro acc j h
    simp only [cmdLoop] at h
    match hl : loads (acc ++ c) with
    | none =>
      rw [hl] at h
      try simp only [] at h
      exact ih (acc ++ c) j h
    | some jd =>
      rw [hl] at h
      try simp only [] at h
      match hty : pyIndex jd kType with
      | .error e => rw [hty] at h; simp at h
      | .ok ty =>
        rw [hty] at h
        try simp only [] at h
        by_cases he : isStrEq ty tyCommand = true
        · rw [if_pos he] at h
          exact ih [] j h
        · rw [if_neg he] at h
          simp only [Except.ok.injEq, Option.some.injEq] at h
          subst h
          exact ⟨ty, hty, by simpa using he⟩

theorem pingLoop_type : ∀ (chunks : List (List Char)) (target acc : List Char) (j : Json),
    pingLoop target acc chunks = .ok (some j) →
    ∃ ty, pyIndex j kType = .ok ty ∧ isStrEq ty tyPing = false := by
  intro chunks
  induction chunks with
  | nil =>
    intro target acc j h
    simp [pingLoop] at h
  | cons c rest ih =>
    intro target acc j h
    simp only [pingLoop] at h
    match hl : loads (acc ++ c) with
    | none =>
      rw [hl] at h
      try simp only [] at h
      exact ih target (acc ++ c) j h
    | some jd =>
      rw [hl] at h
      try simp only [] at h
      match hty : pyIndex jd kType with
      | .error e => rw [hty] at h; simp at h
      | .ok ty =>
        rw [hty] at h
        try simp only [] at h
        by_cases he : isStrEq ty tyPing = true
        · rw [if_pos he] at h
          exact ih target [] j h
        · rw [if_neg he] at h
          by_cases htgt : target.isEmpty = true
          · rw [if_pos htgt] at h
            simp only [Except.ok.injEq, Option.some.injEq] at h
            subst h
            exact ⟨ty, hty, by simpa using he⟩
          · rw [if_neg htgt] at h
            match hd : pyIndex jd kData with
            | .error e => rw [hd] at h; simp at h
            | .ok d =>
              rw [hd] at h
              try simp only [] at h
              match hpn : pyIndex d kProjectName with
              | .error e => rw [hpn] at h; simp at h
              | .ok pn =>
                rw [hpn] at h
                try simp only [] at h
                by_cases hm : isStrEq pn target = true
                · rw [if_pos hm] at h
                  simp only [Except.ok.injEq, Option.some.injEq] at h
                  subst h
                  exact ⟨ty, hty, by simpa using he⟩
                · rw [if_neg hm] at h
                  exact ih target [] j h

theorem pingLoop_project : ∀ (chunks : List (List Char)) (target acc : List Char) (j : Json),
    target ≠ [] → pingLoop target acc chunks = .ok (some j) →
    ∃ d, pyIndex j kData = .ok d ∧ pyIndex d kProjectName = .ok (Json.str target) := by
  intro chunks
  induction chunks with
  | nil =>
    intro target acc j _ h
    simp [pingLoop] at h
  | cons c rest ih =>
    intro target acc j ht h
    simp only [pingLoop] at h
    match hl : loads (acc ++ c) with
    | none =>
      rw [hl] at h
      try simp only [] at h
      exact ih target (acc ++ c) j ht h
    | some jd =>
      rw [hl] at h
      try simp only [] at h
      match hty : pyIndex jd kType with
      | .error e => rw [hty] at h; simp at h
      | .ok ty =>
        rw [hty] at h
        try simp only [] at h
        by_cases he : isStrEq ty tyPing = true
        · rw [if_pos he] at h
          exact ih target [] j ht h
        · rw [if_neg he] at h
          have htgt : target.isEmpty = false := by
            cases target with
            | nil => exact absurd rfl ht
            | cons a b => rfl
          rw [if_neg (by rw [htgt]; simp)] at h
          match hd : pyIndex jd kData with
          | .error e => rw [hd] at h; simp at h
          | .ok d =>
            rw [hd] at h
            try simp only [] at h
            match hpn : pyIndex d kProjectName with
            | .error e => rw [hpn] at h; simp at h
            | .ok pn =>
              rw [hpn] at h
              try simp only [] at h
              by_cases hm : isStrEq pn target = true
              · rw [if_pos hm] at h
                simp only [Except.ok.injEq, Option.some.injEq] at h
                subst h
                exact ⟨d, hd, by rw [← isStrEq_eq_true pn target hm]; exact hpn⟩
              · rw [if_neg hm] at h
                exact ih target [] j ht h

/-! ## Claim theorems -/

/-- C1: the claim says a full-window timeout with zero bytes makes
`execute` return a `CommandResult` with `success = false`. The code
instead reaches `PythonCommandResult(None)` — `receive` breaks out of the
loop with `json_data = None` — whose constructor calls `.get` on `None`
and raises `AttributeError`. This theorem evaluates the model at the
failing input: the receive loop does end at the timeout with no result,
and `execute` then raises `AttributeError` instead of returning a
result. -/
theorem claim_c1_timeout_attribute_error :
    cmdReceive [] = .ok none ∧
    executePythonCommand (some ⟨['u','1'], []⟩) ['l','1'] ['1','+','2']
        execTypeEvaluateStatement true false =
      (.error .attributeError,
       [.sendCommandMsg (commandEnvelope ['l','1'] ['u','1'] ['1','+','2']
          execTypeEvaluateStatement true)]) :=
  ⟨rfl, rfl⟩

/-- C9: calling `execute_python_command` with no command connection opened
(the Closed state) raises the not-connected `ConnectionError` immediately,
performing no socket operation at all. -/
theorem claim_c9_not_connected (localId command exec_mode : List Char)
    (unattended raise_exc : Bool) :
    executePythonCommand none localId command exec_mode unattended raise_exc =
      (.error .connectionNotOpened, []) := rfl

/-- C10: a socket timeout (exhausted chunk trace) terminates both receive
loops even when undecodable partial bytes have been accumulated, and the
accumulated bytes are discarded — the loops return no result rather than
waiting for the rest of the frame. -/
theorem claim_c10_timeout_discards_partial (target acc : List Char)
    (_h : loads acc = none) :
    cmdLoop acc [] = .ok none ∧ pingLoop target acc [] = .ok none :=
  ⟨rfl, rfl⟩

/-- C10 witness: a lone opening brace is accumulated, undecodable, and
discarded at the timeout. -/
theorem claim_c10_witness :
    cmdLoop ['{'] [] = .ok none ∧ pingLoop pFoo ['{'] [] = .ok none :=
  claim_c10_timeout_discards_partial pFoo ['{'] rfl

/-- C8: `close_connection` on a Closed-state controller (no connection
created, no peer id recorded) performs zero socket operations, raises
nothing and leaves the state unchanged; and after any close the next close
is a no-op. -/
theorem claim_c8_idempotent_close :
    (∀ st : SessionState, st.connection_created = false → st.unreal_node_id = [] →
      closeConnection st = (st, [])) ∧
    (∀ st : SessionState,
      closeConnection (closeConnection st).1 = ((closeConnection st).1, [])) := by
  constructor
  · intro st h1 h2
    simp [closeConnection, h1, h2]
  · intro st
    by_cases hb : (st.connection_created || !st.unreal_node_id.isEmpty) = true
    · simp [closeConnection, hb]
    · simp [closeConnection, hb]

/-- C8 witness: close on the initial Closed state is a no-op, and close
after close from an Open state is a no-op. -/
theorem claim_c8_witness :
    closeConnection ⟨false, [], true⟩ = (⟨false, [], true⟩, []) ∧
    closeConnection (closeConnection ⟨true, ['u','1'], true⟩).1 =
      ((closeConnection ⟨true, ['u','1'], true⟩).1, []) :=
  ⟨claim_c8_idempotent_close.1 ⟨false, [], true⟩ rfl rfl,
   claim_c8_idempotent_close.2 ⟨true, ['u','1'], true⟩⟩

/-- C3: with a target project name set, the discovery receive never
returns a reply whose `data.project_name` differs from the target — any
returned reply carries exactly the target name (non-matching replies are
skipped, and an exhausted trace returns nothing). -/
theorem claim_c3_project_name_filter (target : List Char) (chunks : List (List Char))
    (j : Json) (ht : target ≠ []) (h : pingReceive target chunks = .ok (some j)) :
    ∃ d, pyIndex j kData = .ok d ∧ pyIndex d kProjectName = .ok (Json.str target) :=
  pingLoop_project chunks target [] j ht h

/-- C3 witness: a matching Pong reply for target Foo is returned and its
project name is exactly Foo. -/
theorem claim_c3_witness :
    ∃ d, pyIndex pongFoo kData = .ok d ∧ pyIndex d kProjectName = .ok (Json.str pFoo) :=
  claim_c3_project_name_filter pFoo [encodeV pongFoo] pongFoo (by simp [pFoo]) rfl

/-- C4: echo suppression in both receive loops — a decoded envelope whose
`type` equals the channel's own outgoing message type (`ping` on the
discovery path, `command` on the command path) is never returned as the
loop's result. -/
theorem claim_c4_echo_suppression (target : List Char) (chunks : List (List Char)) (j : Json) :
    (pingReceive target chunks = .ok (some j) → pyIndex j kType ≠ .ok (Json.str tyPing)) ∧
    (cmdReceive chunks = .ok (some j) → pyIndex j kType ≠ .ok (Json.str tyCommand)) := by
  constructor
  · intro h hcontra
    obtain ⟨ty, hty, hfalse⟩ := pingLoop_type chunks target [] j h
    rw [hty] at hcontra
    simp only [Except.ok.injEq] at hcontra
    rw [hcontra] at hfalse
    simp [isStrEq] at hfalse
  · intro h hcontra
    obtain ⟨ty, hty, hfalse⟩ := cmdLoop_type chunks [] j h
    rw [hty] at hcontra
    simp only [Except.ok.injEq] at hcontra
    rw [hcontra] at hfalse
    simp [isStrEq] at hfalse

/-- C4 witness: envelopes of type `pong` and `cr` do pass both loops, and
their types are indeed not the suppressed echo types. -/
theorem claim_c4_witness :
    pyIndex pongMin kType ≠ .ok (Json.str tyPing) ∧
    pyIndex crMin kType ≠ .ok (Json.str tyCommand) :=
  ⟨(claim_c4_echo_suppression [] [encodeV pongMin] pongMin).1 rfl,
   (claim_c4_echo_suppression [] [encodeV crMin] crMin).2 rfl⟩

theorem exceptBind_ok {α β : Type} (a : α) (f : α → Except PyErr β) :
    (Except.ok a >>= f : Except PyErr β) = f a := rfl

theorem exceptBind_err {α β : Type} (e : PyErr) (f : α → Except PyErr β) :
    ((Except.error e : Except PyErr α) >>= f) = Except.error e := rfl

/-- C2 counterexample: with a healthy Pong reply but an accept that times
out, `open_connection` propagates `socket.timeout` — which is not the
module's `ConnectionError` class — so the claim that both failure paths
fail with a connection-error is false as stated. -/
theorem claim_c2_counterexample :
    openConnection pFoo [encodeV pongFoo] false = .error .socketTimeout ∧
    isConnectionError .socketTimeout = false :=
  ⟨rfl, rfl⟩

/-- C2 amended: both failure paths of `open_connection` raise an exception
(there is no silent partial-open state), but only the discovery path
raises the module's `ConnectionError`; the command-socket accept timeout
propagates the raw `socket.timeout` instead. -/
theorem claim_c2_amended :
    (∀ (target : List Char) (trace : List (List Char)) (b : Bool),
      pingReceive target trace = .ok none →
      openConnection target trace b = .error .connectionFailed) ∧
    (∀ (target : List Char) (trace : List (List Char)) (j src d : Json),
      pingReceive target trace = .ok (some j) →
      pyIndex j kSource = .ok src → pyIndex j kData = .ok d →
      openConnection target trace false = .error .socketTimeout) := by
  constructor
  · intro target trace b h
    simp [openConnection, h, exceptBind_ok]
  · intro target trace j src d h hsrc hd
    simp [openConnection, h, hsrc, hd, exceptBind_ok]

/-- C2 witness: an empty discovery trace raises the connection-failed
error, and a good Pong with a failed accept raises the socket timeout. -/
theorem claim_c2_witness :
    openConnection pFoo [] true = .error .connectionFailed ∧
    openConnection pFoo [encodeV pongFoo] false = .error .socketTimeout :=
  ⟨claim_c2_amended.1 pFoo [] true rfl,
   claim_c2_amended.2 pFoo [encodeV pongFoo] pongFoo (Json.str ['u','1']) pongFooData
     rfl rfl rfl⟩

/-- C5: fragmentation round-trip — a valid envelope (a JSON object all of
whose strings are printable ASCII) split into two nonempty chunks across
two receives is reassembled by the accumulate-and-retry-decode loop and
decodes to exactly the same envelope as a single whole delivery, on both
the command and the discovery paths. -/
theorem claim_c5_fragmentation (kvs : JObj) (target c1 c2 : List Char)
    (hv : validO kvs = true) (hsplit : encodeV (Json.obj kvs) = c1 ++ c2)
    (h1 : c1 ≠ []) (h2 : c2 ≠ []) :
    cmdReceive [c1, c2] = cmdReceive [c1 ++ c2] ∧
    pingReceive target [c1, c2] = pingReceive target [c1 ++ c2] ∧
    loads (c1 ++ c2) = some (Json.obj kvs) := by
  have hpre := loads_prefix_none kvs c1 c2 hv hsplit h1 h2
  have hfull : loads (c1 ++ c2) = some (Json.obj kvs) := by
    rw [← hsplit]
    exact loads_enc _ (by simpa [validV] using hv)
  refine ⟨?_, ?_, hfull⟩
  · simp only [cmdReceive, cmdLoop, List.nil_append, hpre, hfull]
  · simp only [pingReceive, pingLoop, List.nil_append, hpre, hfull]

/-- C5 witness: the pong envelope split after its opening brace is
received identically to the whole delivery and decodes to the same
envelope. -/
theorem claim_c5_witness :
    cmdReceive [['{'], pongMinTail] = cmdReceive [['{'] ++ pongMinTail] ∧
    pingReceive [] [['{'], pongMinTail] = pingReceive [] [['{'] ++ pongMinTail] ∧
    loads (['{'] ++ pongMinTail) = some (Json.obj pongMinKvs) :=
  claim_c5_fragmentation pongMinKvs [] ['{'] pongMinTail rfl rfl
    (by simp) (by simp [pongMinTail])

/-- C6: on a payload with `success = false`, reading `success` with
raise-on-failure requested raises `PythonCommandError` carrying the
payload's `result` string, and without raise-on-failure returns the plain
boolean false. -/
theorem claim_c6_success_semantics (d : JObj) (src dst : Json) (m : List Char)
    (hs : jObjGet d kSuccess = some (Json.bool false))
    (hr : jObjGet d kResult = some (Json.str m)) :
    resultSuccess ⟨Json.obj d, src, dst, true⟩ = .error (.pythonCommandError (Json.str m)) ∧
    resultSuccess ⟨Json.obj d, src, dst, false⟩ = .ok (Json.bool false) := by
  constructor
  · simp [resultSuccess, dictGet, hs, hr, pyTruthy, exceptBind_ok]
  · simp [resultSuccess, dictGet, hs, pyTruthy, exceptBind_ok]

/-- C6 witness: a failed payload with result string boom raises the
command error with message boom when requested, and returns false
otherwise. -/
theorem claim_c6_witness :
    resultSuccess ⟨Json.obj (JObj.cons kSuccess (Json.bool false)
        (JObj.cons kResult (Json.str ['b','o','o','m']) JObj.nil)), Json.null, Json.null,
        true⟩ = .error (.pythonCommandError (Json.str ['b','o','o','m'])) ∧
    resultSuccess ⟨Json.obj (JObj.cons kSuccess (Json.bool false)
        (JObj.cons kResult (Json.str ['b','o','o','m']) JObj.nil)), Json.null, Json.null,
        false⟩ = .ok (Json.bool false) :=
  claim_c6_success_semantics
    (JObj.cons kSuccess (Json.bool false) (JObj.cons kResult (Json.str ['b','o','o','m']) JObj.nil))
    Json.null Json.null ['b','o','o','m'] rfl rfl

theorem jarrToList_ofList (l : List Json) : jarrToList (jarrOfList l) = l := by
  induction l with
  | nil => rfl
  | cons x tl ih => simp [jarrOfList, jarrToList, ih]

theorem entryStr_mkEntry (p : List Char × List Char) :
    entryStr (mkEntry p) = .ok (p.1 ++ ':' :: ' ' :: p.2) := by
  have h1 : pyIndex (mkEntry p) kType = .ok (Json.str p.1) := by
    simp [mkEntry, pyIndex, jObjGet]
  have h2 : pyIndex (mkEntry p) kOutput = .ok (Json.str p.2) := by
    simp [mkEntry, pyIndex, jObjGet, show (kType = kOutput) = False from by decide]
  simp [entryStr, h1, h2, exceptBind_ok]

theorem entriesStr_map (es : List (List Char × List Char)) :
    entriesStr (es.map mkEntry) = .ok (es.map (fun p => p.1 ++ ':' :: ' ' :: p.2)) := by
  induction es with
  | nil => rfl
  | cons p tl ih => simp [entriesStr, entryStr_mkEntry, ih, exceptBind_ok]

/-- C7: the string rendering of a result built without raise-on-failure —
when `success` is true it is the newline-separated join of `kind: text`
over the output entries in order (so the empty string when the output is
empty), and when `success` is false it is the `result` string. -/
theorem claim_c7_rendering (d : JObj) (src dst : Json)
    (es : List (List Char × List Char)) (m : List Char) :
    ((jObjGet d kSuccess = some (Json.bool true)) →
     (jObjGet d kOutput = some (Json.arr (jarrOfList (es.map mkEntry)))) →
     strDunder ⟨Json.obj d, src, dst, false⟩ =
       .ok (List.intercalate ['\n'] (es.map (fun p => p.1 ++ ':' :: ' ' :: p.2)))) ∧
    ((jObjGet d kSuccess = some (Json.bool false)) →
     (jObjGet d kResult = some (Json.str m)) →
     strDunder ⟨Json.obj d, src, dst, false⟩ = .ok m) := by
  constructor
  · intro hs ho
    simp [strDunder, resultSuccess, dictGet, hs, ho, pyTruthy, outputStr, outputGet,
      pyIterate, jarrToList_ofList, entriesStr_map, exceptBind_ok]
  · intro hs hr
    simp [strDunder, resultSuccess, dictGet, hs, hr, pyTruthy, resultGet, exceptBind_ok]

/-- C7 witness: scenario C renders `{"type": "Log", "output": "hello"}`
as the string `Log: hello`; an empty output list renders as the empty
string; a failed result renders its result string. -/
theorem claim_c7_witness :
    strDunder ⟨Json.obj (JObj.cons kSuccess (Json.bool true)
        (JObj.cons kOutput (Json.arr (jarrOfList ([(['L','o','g'], ['h','e','l','l','o'])].map
          mkEntry))) JObj.nil)), Json.null, Json.null, false⟩ =
      .ok ['L','o','g',':',' ','h','e','l','l','o'] ∧
    strDunder ⟨Json.obj (JObj.cons kSuccess (Json.bool true)
        (JObj.cons kOutput (Json.arr (jarrOfList (([] : List (List Char × List Char)).map
          mkEntry))) JObj.nil)), Json.null, Json.null, false⟩ = .ok [] ∧
    strDunder ⟨Json.obj (JObj.cons kSuccess (Json.bool false)
        (JObj.cons kResult (Json.str ['3']) JObj.nil)), Json.null, Json.null, false⟩ =
      .ok ['3'] :=
  ⟨(claim_c7_rendering _ Json.null Json.null [(['L','o','g'], ['h','e','l','l','o'])] []).1
     rfl rfl,
   (claim_c7_rendering _ Json.null Json.null ([] : List (List Char × List Char)) []).1 rfl rfl,
   (claim_c7_rendering _ Json.null Json.null [] ['3']).2 rfl rfl⟩

end Upyre
